import Mathlib

/-!
Shallow embedding of the gamma-exposure engine (`gamma_engine.py`, with the
ranking constant from `config.py`) and proofs of the specification claims.

Numeric cells of the options table are IEEE doubles in the source; absent
values are NaN.  Here a cell is `Option ℚ`: `none` models NaN, and arithmetic
propagates `none` the way float arithmetic propagates NaN.  Pandas column
sums skip NaN (an all-NaN column sums to 0), which `nsum` reproduces.
-/

/-- A numeric table cell: `none` models a pandas NaN. -/
abbrev RVal := Option ℚ

/-- NaN-propagating multiplication (`NaN * x = NaN`, even for `x = 0`). -/
def rmul : RVal → RVal → RVal
  | some a, some b => some (a * b)
  | _, _ => none

/-- NaN-propagating negation. -/
def rneg : RVal → RVal
  | some a => some (-a)
  | none => none

/-- Pandas skipna sum of a column: NaN cells contribute nothing, and an
all-NaN (or empty) column sums to 0. -/
def nsum (l : List RVal) : ℚ := (l.map (fun v => v.getD 0)).sum

/-- One option-contract observation: a row of the raw options DataFrame.
`type` is the `'call'` / `'put'` string column. -/
structure ContractRow where
  strike : ℚ
  type : String
  volume : RVal
  open_interest : RVal
  gamma : RVal
deriving DecidableEq

/-- A row after `calculate_dealer_gamma`: the input columns plus the
`dealer_gamma`, `call_gamma`, `put_gamma` columns. -/
structure GammaRow where
  strike : ℚ
  type : String
  volume : RVal
  open_interest : RVal
  gamma : RVal
  dealer_gamma : RVal
  call_gamma : RVal
  put_gamma : RVal
deriving DecidableEq

/-- Per-row body of `GammaEngine.calculate_dealer_gamma`:
`gamma` is first `fillna(0)`-ed, then
`dealer_gamma = -open_interest * gamma * 100`, and the value is routed to
`call_gamma` / `put_gamma` by the `type` column (the other side gets 0). -/
def dealerGammaRow (r : ContractRow) : GammaRow :=
  let g : RVal := some (r.gamma.getD 0)
  let dg : RVal := rmul (rmul (rneg r.open_interest) g) (some 100)
  { strike := r.strike
    type := r.type
    volume := r.volume
    open_interest := r.open_interest
    gamma := g
    dealer_gamma := dg
    call_gamma := if r.type = "call" then dg else some 0
    put_gamma := if r.type = "put" then dg else some 0 }

/-- `GammaEngine.calculate_dealer_gamma`: the row-wise `apply` over the
DataFrame.  (The Python guard returns the frame unchanged when it is empty,
which coincides with mapping over the empty list.) -/
def calculate_dealer_gamma (df : List ContractRow) : List GammaRow :=
  df.map dealerGammaRow

/-- One row of the strike-aggregated DataFrame.  The grouped sums are
skipna sums, hence plain rationals. -/
structure StrikeAgg where
  strike : ℚ
  dealer_gamma : ℚ
  call_gamma : ℚ
  put_gamma : ℚ
  volume : ℚ
  open_interest : ℚ
  net_gamma : ℚ
deriving DecidableEq

/-- The aggregate row of `aggregate_by_strike` for one strike value `k`:
skipna sums of each column over the rows whose `strike` equals `k`, and
`net_gamma = call_gamma + put_gamma`. -/
def aggAt (df : List GammaRow) (k : ℚ) : StrikeAgg :=
  let rows := df.filter (fun r => r.strike = k)
  let cg := nsum (rows.map (fun r => r.call_gamma))
  let pg := nsum (rows.map (fun r => r.put_gamma))
  { strike := k
    dealer_gamma := nsum (rows.map (fun r => r.dealer_gamma))
    call_gamma := cg
    put_gamma := pg
    volume := nsum (rows.map (fun r => r.volume))
    open_interest := nsum (rows.map (fun r => r.open_interest))
    net_gamma := cg + pg }

/-- The distinct strike values of the frame, ascending (pandas `groupby`
sorts its keys; the source sorts by strike again afterwards). -/
def strikeKeys (df : List GammaRow) : List ℚ :=
  List.insertionSort (· ≤ ·) (df.map (fun r => r.strike)).dedup

/-- `GammaEngine.aggregate_by_strike`: group by `strike`, sum each column
(skipna), add `net_gamma = call_gamma + put_gamma`, sort by strike. -/
def aggregate_by_strike (df : List GammaRow) : List StrikeAgg :=
  (strikeKeys df).map (aggAt df)

-- A quick sanity lemma tying the fields of an aggregate row to its key.
theorem aggAt_strike (df : List GammaRow) (k : ℚ) : (aggAt df k).strike = k := rfl

theorem aggregate_nil : aggregate_by_strike [] = [] := rfl

/-- The `levels` dictionary built by `identify_key_levels`; every key is
optional, matching dictionary-key absence. -/
structure Levels where
  put_wall : Option ℚ := none
  put_wall_gamma : Option ℚ := none
  call_wall : Option ℚ := none
  call_wall_gamma : Option ℚ := none
  gamma_flip : Option ℚ := none
  gamma_flip_value : Option ℚ := none
deriving DecidableEq

/-- The engine's mutable attributes (`self.levels`, `self.regime`). -/
structure EngineState where
  levels : Levels
  regime : String
deriving DecidableEq

/-- `GammaEngine.__init__`. -/
def engineInit : EngineState := { levels := {}, regime := "neutral" }

/-- Tail of pandas `Series.idxmax`: scan the remaining rows, replacing the
current best only on a strictly larger value, so the first maximum in row
order wins. -/
def idxmaxGo (f : α → ℚ) (best : α) : List α → α
  | [] => best
  | y :: ys => idxmaxGo f (if f best < f y then y else best) ys

/-- Pandas `Series.idxmax`: the first row attaining the maximum of `f`, in
row order; `none` on an empty frame. -/
def idxmaxBy (f : α → ℚ) : List α → Option α
  | [] => none
  | x :: xs => some (idxmaxGo f x xs)

/-- Pandas `Series.idxmin`: the first row attaining the minimum of `f`. -/
def idxminBy (f : α → ℚ) (l : List α) : Option α :=
  idxmaxBy (fun a => -(f a)) l

/-- The put-wall candidate rows (`put_strikes`): strikes strictly below the
current price, falling back to strikes at-or-below it when that filter is
empty. -/
def putCandidates (df : List StrikeAgg) (p : ℚ) : List StrikeAgg :=
  let put0 := df.filter (fun r => r.strike < p)
  if put0 = [] then df.filter (fun r => r.strike ≤ p) else put0

/-- The call-wall candidate rows (`call_strikes`): strikes strictly above
the current price, falling back to at-or-above when empty. -/
def callCandidates (df : List StrikeAgg) (p : ℚ) : List StrikeAgg :=
  let call0 := df.filter (fun r => p < r.strike)
  if call0 = [] then df.filter (fun r => p ≤ r.strike) else call0

/-- The gamma-flip candidate rows (`near_price`): the strike-sorted frame
restricted to strikes within `[price * 0.99, price * 1.01]` (inclusive). -/
def nearPrice (df : List StrikeAgg) (p : ℚ) : List StrikeAgg :=
  (List.insertionSort (fun a b => a.strike ≤ b.strike) df).filter
    (fun r => p * (99 / 100) ≤ r.strike ∧ r.strike ≤ p * (101 / 100))

/-- The body of `GammaEngine.identify_key_levels` on a non-empty frame: the
put wall is the `idxmax` row of `|put_gamma|` over `putCandidates`, the
call wall the `idxmax` row of `|call_gamma|` over `callCandidates`, and the
gamma flip the `idxmin` row of `|net_gamma|` over `nearPrice`; each pair of
dictionary keys is set exactly when its search finds a row.  (The source
also computes a `gamma_sign_change` diff column; no output reads it.) -/
def identifyLevelsBody (df : List StrikeAgg) (p : ℚ) : Levels :=
  let pw := idxmaxBy (fun r => |r.put_gamma|) (putCandidates df p)
  let cw := idxmaxBy (fun r => |r.call_gamma|) (callCandidates df p)
  let gf := idxminBy (fun r => |r.net_gamma|) (nearPrice df p)
  { put_wall := pw.map (fun r => r.strike)
    put_wall_gamma := pw.map (fun r => r.put_gamma)
    call_wall := cw.map (fun r => r.strike)
    call_wall_gamma := cw.map (fun r => r.call_gamma)
    gamma_flip := gf.map (fun r => r.strike)
    gamma_flip_value := gf.map (fun r => r.net_gamma) }

/-- `GammaEngine.identify_key_levels`: on an empty frame it returns the
empty dictionary WITHOUT touching `self.levels`; otherwise it stores the
computed dictionary in `self.levels` and returns it. -/
def identify_key_levels (s : EngineState) (df : List StrikeAgg) (p : ℚ) :
    Levels × EngineState :=
  if df = [] then ({}, s)
  else
    let lv := identifyLevelsBody df p
    (lv, { s with levels := lv })

/-- `config.top_levels_count` (`TOP_LEVELS_COUNT`, default `"5"`, parsed as
a Python int, hence possibly negative). -/
structure Config where
  top_levels_count : ℤ := 5
deriving DecidableEq

/-- An aggregate row together with its `score` column. -/
structure ScoredAgg where
  base : StrikeAgg
  score : ℚ
deriving DecidableEq

/-- The ordering used by pandas `DataFrame.nlargest(n, 'score')` with the
default `keep='first'`: score descending, original row position ascending
on exact ties (the implementation's argsort is a stable mergesort). -/
def rankRel (a b : ℕ × ScoredAgg) : Prop :=
  b.2.score < a.2.score ∨ (a.2.score = b.2.score ∧ a.1 ≤ b.1)

instance : DecidableRel rankRel := fun a b => by
  unfold rankRel; exact inferInstance

instance : IsTotal (ℕ × ScoredAgg) rankRel := by
  constructor
  intro a b
  rcases lt_trichotomy a.2.score b.2.score with h | h | h
  · exact Or.inr (Or.inl h)
  · rcases Nat.le_total a.1 b.1 with hn | hn
    · exact Or.inl (Or.inr ⟨h, hn⟩)
    · exact Or.inr (Or.inr ⟨h.symm, hn⟩)
  · exact Or.inl (Or.inl h)

instance : IsTrans (ℕ × ScoredAgg) rankRel := by
  constructor
  intro a b c hab hbc
  rcases hab with hab | ⟨hab, hab2⟩
  · rcases hbc with hbc | ⟨hbc, _⟩
    · exact Or.inl (hbc.trans hab)
    · exact Or.inl (lt_of_eq_of_lt hbc.symm hab)
  · rcases hbc with hbc | ⟨hbc, hbc2⟩
    · exact Or.inl (lt_of_lt_of_eq hbc hab.symm)
    · exact Or.inr ⟨hab.trans hbc, hab2.trans hbc2⟩

/-- Pandas `DataFrame.nlargest(n, 'score')` with `keep='first'`: empty for
`n ≤ 0`, otherwise the first `n` rows of the stable descending sort by
score (ties kept in original row order, via the row index). -/
def nlargestScore (n : ℤ) (l : List ScoredAgg) : List ScoredAgg :=
  if n ≤ 0 then []
  else ((List.insertionSort rankRel l.enum).map Prod.snd).take n.toNat

/-- `GammaEngine.rank_levels`: add `score = |net_gamma| * volume` and take
the top `config.top_levels_count` rows by score.  (The Python early-returns
an empty frame, which coincides with `nlargest` of the empty list.) -/
def rank_levels (cfg : Config) (df : List StrikeAgg) : List ScoredAgg :=
  nlargestScore cfg.top_levels_count
    (df.map (fun a => { base := a, score := |a.net_gamma| * a.volume }))

/-- `GammaEngine.determine_regime`: neutral when the frame is empty or
`'gamma_flip'` is not in `self.levels` (in both cases `self.regime` is NOT
written); otherwise `short_gamma` when `current_price > gamma_flip`, else
`long_gamma`, and the result is stored in `self.regime`. -/
def determine_regime (s : EngineState) (df : List StrikeAgg) (p : ℚ) :
    String × EngineState :=
  if df = [] then ("neutral", s)
  else
    match s.levels.gamma_flip with
    | none => ("neutral", s)
    | some gf =>
      let regime := if gf < p then "short_gamma" else "long_gamma"
      (regime, { s with regime := regime })

/-- `GammaEngine.process_options_data`: the five stages in order.  The
Python returns `(df_agg, levels, regime)`; the ranking computed in step 4
is also recorded here as part of the run's output. -/
def process_options_data (cfg : Config) (s : EngineState)
    (df : List ContractRow) (p : ℚ) :
    (List StrikeAgg × Levels × List ScoredAgg × String) × EngineState :=
  let df_gamma := calculate_dealer_gamma df
  let df_agg := aggregate_by_strike df_gamma
  let iks := identify_key_levels s df_agg p
  let top_levels := rank_levels cfg df_agg
  let reg := determine_regime iks.2 df_agg p
  ((df_agg, iks.1, top_levels, reg.1), reg.2)

/-! ### Helper lemmas about the `idxmax` / `idxmin` scans -/

theorem idxmaxGo_eq_or_mem (f : α → ℚ) (b : α) (l : List α) :
    idxmaxGo f b l = b ∨ idxmaxGo f b l ∈ l := by
  induction l generalizing b with
  | nil => exact Or.inl rfl
  | cons y ys ih =>
    rw [idxmaxGo]
    rcases ih (if f b < f y then y else b) with h | h
    · rw [h]
      by_cases hc : f b < f y
      · rw [if_pos hc]; exact Or.inr (List.mem_cons_self _ _)
      · rw [if_neg hc]; exact Or.inl rfl
    · exact Or.inr (List.mem_cons_of_mem _ h)

theorem le_idxmaxGo (f : α → ℚ) (b : α) (l : List α) :
    f b ≤ f (idxmaxGo f b l) := by
  induction l generalizing b with
  | nil => exact le_rfl
  | cons y ys ih =>
    rw [idxmaxGo]
    refine le_trans ?_ (ih _)
    by_cases hc : f b < f y
    · rw [if_pos hc]; exact le_of_lt hc
    · rw [if_neg hc]

theorem mem_le_idxmaxGo (f : α → ℚ) (b : α) (l : List α) :
    ∀ y ∈ l, f y ≤ f (idxmaxGo f b l) := by
  induction l generalizing b with
  | nil => intro y hy; cases hy
  | cons z zs ih =>
    intro y hy
    rw [idxmaxGo]
    rcases List.mem_cons.1 hy with rfl | hy
    · refine le_trans ?_ (le_idxmaxGo f _ zs)
      by_cases hc : f b < f y
      · rw [if_pos hc]
      · rw [if_neg hc]; exact le_of_not_lt hc
    · exact ih _ y hy

theorem idxmaxGo_tie (f g : α → ℚ) (b : α) (l : List α)
    (hp : (b :: l).Pairwise (fun x y => g x < g y)) :
    ∀ y ∈ b :: l, f y = f (idxmaxGo f b l) → g (idxmaxGo f b l) ≤ g y := by
  induction l generalizing b with
  | nil =>
    intro y hy _
    rcases List.mem_singleton.1 hy with rfl
    exact le_rfl
  | cons z zs ih =>
    rcases List.pairwise_cons.1 hp with ⟨hb, hp2⟩
    have hbz : g b < g z := hb z (List.mem_cons_self _ _)
    have hpzs : zs.Pairwise (fun x y => g x < g y) := (List.pairwise_cons.1 hp2).2
    by_cases hc : f b < f z
    · have hstep : idxmaxGo f b (z :: zs) = idxmaxGo f z zs := by
        rw [idxmaxGo, if_pos hc]
      have H := ih z hp2
      intro y hy hf
      rw [hstep] at hf ⊢
      rcases List.mem_cons.1 hy with rfl | hy
      · have hlt : f y < f (idxmaxGo f z zs) := lt_of_lt_of_le hc (le_idxmaxGo f z zs)
        exact absurd hf (ne_of_lt hlt)
      · exact H y hy hf
    · have hstep : idxmaxGo f b (z :: zs) = idxmaxGo f b zs := by
        rw [idxmaxGo, if_neg hc]
      have hpb : (b :: zs).Pairwise (fun x y => g x < g y) :=
        List.pairwise_cons.2 ⟨fun y hy => hb y (List.mem_cons_of_mem _ hy), hpzs⟩
      have H := ih b hpb
      intro y hy hf
      rw [hstep] at hf ⊢
      rcases List.mem_cons.1 hy with rfl | hy
      · exact H _ (List.mem_cons_self _ _) hf
      · rcases List.mem_cons.1 hy with rfl | hy
        · have h1 : f b ≤ f (idxmaxGo f b zs) := le_idxmaxGo f b zs
          have h2 : f y ≤ f b := le_of_not_lt hc
          have hb' : f b = f (idxmaxGo f b zs) := by linarith
          have h3 := H b (List.mem_cons_self _ _) hb'
          exact le_trans h3 (le_of_lt hbz)
        · exact H y (List.mem_cons_of_mem _ hy) hf

theorem idxmaxBy_eq_none (f : α → ℚ) (l : List α) :
    idxmaxBy f l = none ↔ l = [] := by
  cases l <;> simp [idxmaxBy]

theorem idxminBy_eq_none (f : α → ℚ) (l : List α) :
    idxminBy f l = none ↔ l = [] :=
  idxmaxBy_eq_none _ l

/-- Soundness of the `idxmax` scan over a frame whose rows are strictly
increasing on a key `g`: the selected row is in the frame, attains the
maximum of `f`, and has the least key among the rows tying that maximum. -/
theorem idxmaxBy_spec (f g : α → ℚ) (l : List α) (r : α)
    (hr : idxmaxBy f l = some r) (hp : l.Pairwise (fun x y => g x < g y)) :
    r ∈ l ∧ (∀ y ∈ l, f y ≤ f r) ∧ (∀ y ∈ l, f y = f r → g r ≤ g y) := by
  cases l with
  | nil => cases hr
  | cons x xs =>
    obtain rfl : idxmaxGo f x xs = r := by simpa [idxmaxBy] using hr
    refine ⟨?_, ?_, idxmaxGo_tie f g x xs hp⟩
    · rcases idxmaxGo_eq_or_mem f x xs with h | h
      · rw [h]; exact List.mem_cons_self _ _
      · exact List.mem_cons_of_mem _ h
    · intro y hy
      rcases List.mem_cons.1 hy with rfl | hy
      · exact le_idxmaxGo f y xs
      · exact mem_le_idxmaxGo f x xs y hy

/-- Counterpart of `idxmaxBy_spec` for the `idxmin` scan. -/
theorem idxminBy_spec (f g : α → ℚ) (l : List α) (r : α)
    (hr : idxminBy f l = some r) (hp : l.Pairwise (fun x y => g x < g y)) :
    r ∈ l ∧ (∀ y ∈ l, f r ≤ f y) ∧ (∀ y ∈ l, f y = f r → g r ≤ g y) := by
  have h := idxmaxBy_spec (fun a => -(f a)) g l r hr hp
  refine ⟨h.1, fun y hy => ?_, fun y hy hf => h.2.2 y hy ?_⟩
  · have h1 := h.2.1 y hy
    simp only [neg_le_neg_iff] at h1
    exact h1
  · simp only [neg_inj]; exact hf

/-! ### Structural lemmas about strike aggregation -/

theorem strikeKeys_sorted (df : List GammaRow) :
    (strikeKeys df).Sorted (· ≤ ·) :=
  List.sorted_insertionSort _ _

theorem strikeKeys_nodup (df : List GammaRow) : (strikeKeys df).Nodup :=
  (List.perm_insertionSort _ _).symm.nodup (List.nodup_dedup _)

theorem strikeKeys_mem (df : List GammaRow) (k : ℚ) :
    k ∈ strikeKeys df ↔ k ∈ df.map (fun r => r.strike) := by
  rw [strikeKeys, (List.perm_insertionSort _ _).mem_iff, List.mem_dedup]

theorem aggregate_map_strike (df : List GammaRow) :
    (aggregate_by_strike df).map (fun a => a.strike) = strikeKeys df := by
  rw [aggregate_by_strike, List.map_map]
  exact List.map_id _

theorem aggregate_sorted_strict (df : List GammaRow) :
    (aggregate_by_strike df).Pairwise (fun a b => a.strike < b.strike) := by
  have h : (strikeKeys df).Pairwise (· < ·) :=
    (strikeKeys_sorted df).lt_of_le (strikeKeys_nodup df)
  rw [aggregate_by_strike]
  exact List.pairwise_map.2 h

theorem mem_aggregate (df : List GammaRow) (a : StrikeAgg) :
    a ∈ aggregate_by_strike df ↔ a.strike ∈ strikeKeys df ∧ a = aggAt df a.strike := by
  rw [aggregate_by_strike]
  constructor
  · intro h
    rcases List.mem_map.1 h with ⟨k, hk, rfl⟩
    exact ⟨hk, rfl⟩
  · intro ⟨h1, h2⟩
    rw [h2]
    exact List.mem_map.2 ⟨a.strike, h1, rfl⟩

/-! ### Lemmas about the level-search candidate lists -/

theorem putCandidates_pairwise (df : List StrikeAgg) (p : ℚ)
    (hs : df.Pairwise (fun a b => a.strike < b.strike)) :
    (putCandidates df p).Pairwise (fun a b => a.strike < b.strike) := by
  simp only [putCandidates]
  split <;> exact hs.filter _

theorem mem_putCandidates_le (df : List StrikeAgg) (p : ℚ) (a : StrikeAgg)
    (ha : a ∈ putCandidates df p) : a ∈ df ∧ a.strike ≤ p := by
  simp only [putCandidates] at ha
  split at ha
  · rcases List.mem_filter.1 ha with ⟨h1, h2⟩
    exact ⟨h1, by simpa using h2⟩
  · rcases List.mem_filter.1 ha with ⟨h1, h2⟩
    have h3 : a.strike < p := by simpa using h2
    exact ⟨h1, le_of_lt h3⟩

theorem putCandidates_eq_nil_iff (df : List StrikeAgg) (p : ℚ) :
    putCandidates df p = [] ↔ ∀ a ∈ df, ¬ a.strike ≤ p := by
  simp only [putCandidates]
  split
  · simp [List.filter_eq_nil_iff]
  · next h =>
    constructor
    · intro h2; exact absurd h2 h
    · intro h2
      exfalso
      apply h
      rw [List.filter_eq_nil_iff]
      intro a ha
      simp only [decide_eq_true_eq]
      intro hlt
      exact h2 a ha (le_of_lt hlt)

theorem nearPrice_eq_of_sorted (df : List StrikeAgg) (p : ℚ)
    (hs : df.Pairwise (fun a b => a.strike < b.strike)) :
    nearPrice df p =
      df.filter (fun r => p * (99 / 100) ≤ r.strike ∧ r.strike ≤ p * (101 / 100)) := by
  rw [nearPrice]
  congr 1
  exact List.Sorted.insertionSort_eq (hs.imp fun h => le_of_lt h)

/-! ### Claim theorems -/

/-- C1.  For every contract row with known open interest `oi` and known
gamma `g`, `calculate_dealer_gamma` assigns it
`dealer_gamma = -1 * oi * g * 100` (contract multiplier fixed at 100), and
routes that value into `call_gamma` (with `put_gamma = 0`) when the row's
type is `call`, and into `put_gamma` (with `call_gamma = 0`) when it is
`put`. -/
theorem c1_dealer_gamma (df : List ContractRow) (r : ContractRow)
    (hr : r ∈ df) (oi g : ℚ)
    (hoi : r.open_interest = some oi) (hg : r.gamma = some g) :
    dealerGammaRow r ∈ calculate_dealer_gamma df ∧
    (dealerGammaRow r).dealer_gamma = some (-1 * oi * g * 100) ∧
    (r.type = "call" →
      (dealerGammaRow r).call_gamma = some (-1 * oi * g * 100) ∧
      (dealerGammaRow r).put_gamma = some 0) ∧
    (r.type = "put" →
      (dealerGammaRow r).put_gamma = some (-1 * oi * g * 100) ∧
      (dealerGammaRow r).call_gamma = some 0) := by
  have hdg : (dealerGammaRow r).dealer_gamma = some (-1 * oi * g * 100) := by
    simp only [dealerGammaRow, hoi, hg, rneg, rmul, Option.getD_some, Option.some.injEq]
    ring
  refine ⟨List.mem_map.2 ⟨r, hr, rfl⟩, hdg, fun ht => ⟨?_, ?_⟩, fun ht => ⟨?_, ?_⟩⟩
  · rw [← hdg]; simp [dealerGammaRow, ht]
  · have : r.type ≠ "put" := by rw [ht]; decide
    simp [dealerGammaRow, this]
  · rw [← hdg]; simp [dealerGammaRow, ht]
  · have : r.type ≠ "call" := by rw [ht]; decide
    simp [dealerGammaRow, this]

/-- Witness for C1 at a concrete put contract with `oi = 10`, `g = 1/100`. -/
theorem c1_dealer_gamma_witness :
    dealerGammaRow ⟨100, "put", some 0, some 10, some (1 / 100)⟩ ∈
      calculate_dealer_gamma [⟨100, "put", some 0, some 10, some (1 / 100)⟩] ∧
    (dealerGammaRow ⟨100, "put", some 0, some 10, some (1 / 100)⟩).dealer_gamma =
      some (-1 * 10 * (1 / 100) * 100) ∧
    (dealerGammaRow ⟨100, "put", some 0, some 10, some (1 / 100)⟩).put_gamma =
      some (-1 * 10 * (1 / 100) * 100) ∧
    (dealerGammaRow ⟨100, "put", some 0, some 10, some (1 / 100)⟩).call_gamma = some 0 := by
  have h := c1_dealer_gamma [⟨100, "put", some 0, some 10, some (1 / 100)⟩]
    ⟨100, "put", some 0, some 10, some (1 / 100)⟩ (List.mem_singleton.2 rfl)
    10 (1 / 100) rfl rfl
  exact ⟨h.1, h.2.1, (h.2.2.2 rfl).1, (h.2.2.2 rfl).2⟩

/-- C2.  Strike aggregation produces exactly one output row per distinct
input strike, sorted strictly ascending by strike; each output row's
call-gamma, put-gamma, volume and open-interest fields are the (skipna)
sums over all input rows sharing that strike, and satisfy
`net_gamma = call_gamma + put_gamma`; and an empty input yields an empty
aggregate. -/
theorem c2_aggregate_invariants (df : List GammaRow) :
    aggregate_by_strike ([] : List GammaRow) = [] ∧
    ((aggregate_by_strike df).map (fun a => a.strike)).Nodup ∧
    (aggregate_by_strike df).Pairwise (fun a b => a.strike < b.strike) ∧
    (∀ k : ℚ, (∃ a ∈ aggregate_by_strike df, a.strike = k) ↔ (∃ r ∈ df, r.strike = k)) ∧
    (∀ a ∈ aggregate_by_strike df,
      a.call_gamma = nsum ((df.filter (fun r => r.strike = a.strike)).map (fun r => r.call_gamma)) ∧
      a.put_gamma = nsum ((df.filter (fun r => r.strike = a.strike)).map (fun r => r.put_gamma)) ∧
      a.volume = nsum ((df.filter (fun r => r.strike = a.strike)).map (fun r => r.volume)) ∧
      a.open_interest = nsum ((df.filter (fun r => r.strike = a.strike)).map (fun r => r.open_interest)) ∧
      a.net_gamma = a.call_gamma + a.put_gamma) := by
  refine ⟨rfl, ?_, aggregate_sorted_strict df, ?_, ?_⟩
  · rw [aggregate_map_strike]; exact strikeKeys_nodup df
  · intro k
    constructor
    · intro ⟨a, ha, hk⟩
      have h1 := ((mem_aggregate df a).1 ha).1
      rw [hk] at h1
      rcases List.mem_map.1 ((strikeKeys_mem df k).1 h1) with ⟨r, hr, hrk⟩
      exact ⟨r, hr, hrk⟩
    · intro ⟨r, hr, hrk⟩
      refine ⟨aggAt df k, (mem_aggregate df _).2 ⟨?_, rfl⟩, rfl⟩
      exact (strikeKeys_mem df k).2 (List.mem_map.2 ⟨r, hr, hrk⟩)
  · intro a ha
    obtain ⟨-, h2⟩ := (mem_aggregate df a).1 ha
    rw [h2]
    exact ⟨rfl, rfl, rfl, rfl, rfl⟩

/-- Witness for C2 at a two-strike frame. -/
theorem c2_aggregate_invariants_witness :
    (aggregate_by_strike [⟨2, "call", some 1, some 1, some 1, some 3, some 3, some 0⟩,
        ⟨1, "put", some 1, some 1, some 1, some 4, some 0, some 4⟩]).Pairwise
      (fun a b => a.strike < b.strike) ∧
    (aggAt [⟨2, "call", some 1, some 1, some 1, some 3, some 3, some 0⟩,
        ⟨1, "put", some 1, some 1, some 1, some 4, some 0, some 4⟩] 1).net_gamma =
      (aggAt [⟨2, "call", some 1, some 1, some 1, some 3, some 3, some 0⟩,
        ⟨1, "put", some 1, some 1, some 1, some 4, some 0, some 4⟩] 1).call_gamma +
      (aggAt [⟨2, "call", some 1, some 1, some 1, some 3, some 3, some 0⟩,
        ⟨1, "put", some 1, some 1, some 1, some 4, some 0, some 4⟩] 1).put_gamma := by
  have h := c2_aggregate_invariants [⟨2, "call", some 1, some 1, some 1, some 3, some 3, some 0⟩,
    ⟨1, "put", some 1, some 1, some 1, some 4, some 0, some 4⟩]
  refine ⟨h.2.2.1, ?_⟩
  refine (h.2.2.2.2 _ ?_).2.2.2.2
  rw [show aggregate_by_strike [⟨2, "call", some 1, some 1, some 1, some 3, some 3, some 0⟩,
        ⟨1, "put", some 1, some 1, some 1, some 4, some 0, some 4⟩] =
      [aggAt [⟨2, "call", some 1, some 1, some 1, some 3, some 3, some 0⟩,
        ⟨1, "put", some 1, some 1, some 1, some 4, some 0, some 4⟩] 1,
       aggAt [⟨2, "call", some 1, some 1, some 1, some 3, some 3, some 0⟩,
        ⟨1, "put", some 1, some 1, some 1, some 4, some 0, some 4⟩] 2] from rfl]
  exact List.mem_cons_self _ _

/-- C3.  On a non-empty strike-sorted aggregate, the put wall, when
present, is the lowest strike among those maximizing `|put_gamma|` over the
put-candidate set (strikes strictly below the reference price, falling back
to at-or-below); a present put wall is always `≤` the reference price, and
the key is absent exactly when no strike is at-or-below the reference
price. -/
theorem c3_put_wall (s : EngineState) (df : List StrikeAgg) (p : ℚ)
    (hne : df ≠ []) (hs : df.Pairwise (fun a b => a.strike < b.strike)) :
    ((identify_key_levels s df p).1.put_wall = none ↔ ∀ a ∈ df, ¬ a.strike ≤ p) ∧
    (∀ w, (identify_key_levels s df p).1.put_wall = some w →
      w ≤ p ∧ ∃ a ∈ putCandidates df p, w = a.strike ∧
        (∀ b ∈ putCandidates df p, |b.put_gamma| ≤ |a.put_gamma|) ∧
        (∀ b ∈ putCandidates df p, |b.put_gamma| = |a.put_gamma| → a.strike ≤ b.strike)) := by
  have hpw : (identify_key_levels s df p).1.put_wall =
      (idxmaxBy (fun r => |r.put_gamma|) (putCandidates df p)).map (fun r => r.strike) := by
    rw [identify_key_levels, if_neg hne]
    rfl
  constructor
  · rw [hpw, Option.map_eq_none', idxmaxBy_eq_none, putCandidates_eq_nil_iff]
  · intro w hw
    rw [hpw, Option.map_eq_some'] at hw
    obtain ⟨r, hr, hrw⟩ := hw
    have hspec : r ∈ putCandidates df p ∧
        (∀ b ∈ putCandidates df p, |b.put_gamma| ≤ |r.put_gamma|) ∧
        (∀ b ∈ putCandidates df p, |b.put_gamma| = |r.put_gamma| → r.strike ≤ b.strike) :=
      idxmaxBy_spec _ _ (putCandidates df p) r hr (putCandidates_pairwise df p hs)
    refine ⟨?_, r, hspec.1, hrw.symm, hspec.2.1, hspec.2.2⟩
    rw [← hrw]
    exact (mem_putCandidates_le df p r hspec.1).2

/-- Witness for C3: two strikes 95 and 105 with reference price 100 — the
put wall is 95, which is at most the reference price. -/
theorem c3_put_wall_witness :
    (identify_key_levels engineInit
      [⟨95, -10, 0, -10, 1, 1, -10⟩, ⟨105, -20, -20, 0, 1, 1, -20⟩] 100).1.put_wall =
      some 95 ∧ (95 : ℚ) ≤ 100 := by
  have h := c3_put_wall engineInit
    [⟨95, -10, 0, -10, 1, 1, -10⟩, ⟨105, -20, -20, 0, 1, 1, -20⟩] 100
    (by decide) (by decide)
  have hpw : (identify_key_levels engineInit
      [⟨95, -10, 0, -10, 1, 1, -10⟩, ⟨105, -20, -20, 0, 1, 1, -20⟩] 100).1.put_wall =
      some 95 := by decide
  exact ⟨hpw, (h.2 95 hpw).1⟩

/-- C4.  On a non-empty strike-sorted aggregate, the gamma flip, when
present, is the lowest strike among those minimizing `|net_gamma|` over the
strikes in the inclusive window `[0.99 * p, 1.01 * p]`; when no strike lies
in the window the `gamma_flip` key is absent and the regime determined from
the resulting engine state is neutral. -/
theorem c4_gamma_flip (s : EngineState) (df : List StrikeAgg) (p : ℚ)
    (hne : df ≠ []) (hs : df.Pairwise (fun a b => a.strike < b.strike)) :
    (df.filter (fun r => p * (99 / 100) ≤ r.strike ∧ r.strike ≤ p * (101 / 100)) = [] →
      (identify_key_levels s df p).1.gamma_flip = none ∧
      (determine_regime (identify_key_levels s df p).2 df p).1 = "neutral") ∧
    (∀ w, (identify_key_levels s df p).1.gamma_flip = some w →
      ∃ a ∈ df.filter (fun r => p * (99 / 100) ≤ r.strike ∧ r.strike ≤ p * (101 / 100)),
        w = a.strike ∧
        (∀ b ∈ df.filter (fun r => p * (99 / 100) ≤ r.strike ∧ r.strike ≤ p * (101 / 100)),
          |a.net_gamma| ≤ |b.net_gamma|) ∧
        (∀ b ∈ df.filter (fun r => p * (99 / 100) ≤ r.strike ∧ r.strike ≤ p * (101 / 100)),
          |b.net_gamma| = |a.net_gamma| → a.strike ≤ b.strike)) := by
  have hgf : (identify_key_levels s df p).1.gamma_flip =
      (idxminBy (fun r => |r.net_gamma|) (nearPrice df p)).map (fun r => r.strike) := by
    rw [identify_key_levels, if_neg hne]
    rfl
  have hstate : (identify_key_levels s df p).2.levels = identifyLevelsBody df p := by
    rw [identify_key_levels, if_neg hne]
  have hwin : nearPrice df p =
      df.filter (fun r => p * (99 / 100) ≤ r.strike ∧ r.strike ≤ p * (101 / 100)) :=
    nearPrice_eq_of_sorted df p hs
  constructor
  · intro hempty
    have hnone : (identify_key_levels s df p).1.gamma_flip = none := by
      rw [hgf, Option.map_eq_none', idxminBy_eq_none, hwin]
      exact hempty
    refine ⟨hnone, ?_⟩
    have hsg : (identify_key_levels s df p).2.levels.gamma_flip = none := by
      rw [hstate]
      rw [hgf] at hnone
      exact hnone
    rw [determine_regime, if_neg hne, hsg]
  · intro w hw
    rw [hgf, Option.map_eq_some'] at hw
    obtain ⟨r, hr, hrw⟩ := hw
    rw [hwin] at hr
    have hpf : (df.filter (fun r => p * (99 / 100) ≤ r.strike ∧
        r.strike ≤ p * (101 / 100))).Pairwise (fun a b => a.strike < b.strike) :=
      hs.filter _
    have hspec : r ∈ df.filter (fun r => p * (99 / 100) ≤ r.strike ∧
          r.strike ≤ p * (101 / 100)) ∧
        (∀ b ∈ df.filter (fun r => p * (99 / 100) ≤ r.strike ∧
          r.strike ≤ p * (101 / 100)), |r.net_gamma| ≤ |b.net_gamma|) ∧
        (∀ b ∈ df.filter (fun r => p * (99 / 100) ≤ r.strike ∧
          r.strike ≤ p * (101 / 100)), |b.net_gamma| = |r.net_gamma| → r.strike ≤ b.strike) :=
      idxminBy_spec _ _ _ r hr hpf
    exact ⟨r, hspec.1, hrw.symm, hspec.2.1, hspec.2.2⟩

/-- Witness for C4: a single strike 100 with reference price 200 — the ±1%
window `[198, 202]` is empty, the flip key is absent and the regime is
neutral. -/
theorem c4_gamma_flip_witness :
    (identify_key_levels engineInit [⟨100, -10, 0, -10, 1, 1, -10⟩] 200).1.gamma_flip = none ∧
    (determine_regime (identify_key_levels engineInit
      [⟨100, -10, 0, -10, 1, 1, -10⟩] 200).2 [⟨100, -10, 0, -10, 1, 1, -10⟩] 200).1 =
      "neutral" :=
  (c4_gamma_flip engineInit [⟨100, -10, 0, -10, 1, 1, -10⟩] 200
    (by decide) (by decide)).1 (by norm_num [List.filter_cons])

/-- C5.  The regime returned by the pipeline is neutral exactly when
`gamma_flip` is absent from the returned level set; when present, the
regime is `short_gamma` if the reference price strictly exceeds the flip
strike and `long_gamma` otherwise (equality included). -/
theorem c5_regime_consistency (cfg : Config) (s : EngineState)
    (df : List ContractRow) (p : ℚ) :
    ((process_options_data cfg s df p).1.2.2.2 = "neutral" ↔
      (process_options_data cfg s df p).1.2.1.gamma_flip = none) ∧
    (∀ w, (process_options_data cfg s df p).1.2.1.gamma_flip = some w →
      (process_options_data cfg s df p).1.2.2.2 =
        if w < p then "short_gamma" else "long_gamma") := by
  by_cases hA : aggregate_by_strike (calculate_dealer_gamma df) = []
  · constructor
    · simp [process_options_data, identify_key_levels, determine_regime, hA]
    · intro w hw
      simp [process_options_data, identify_key_levels, hA] at hw
  · have hlv : (process_options_data cfg s df p).1.2.1 =
        identifyLevelsBody (aggregate_by_strike (calculate_dealer_gamma df)) p := by
      simp only [process_options_data, identify_key_levels, if_neg hA]
    have hreg : (process_options_data cfg s df p).1.2.2.2 =
        (determine_regime
          { s with levels :=
              identifyLevelsBody (aggregate_by_strike (calculate_dealer_gamma df)) p }
          (aggregate_by_strike (calculate_dealer_gamma df)) p).1 := by
      simp only [process_options_data, identify_key_levels, if_neg hA]
    cases hgf :
        (identifyLevelsBody (aggregate_by_strike (calculate_dealer_gamma df)) p).gamma_flip with
    | none =>
      constructor
      · rw [hreg, hlv, hgf, determine_regime, if_neg hA]
        simp [hgf]
      · intro w hw
        rw [hlv, hgf] at hw
        cases hw
    | some gf =>
      constructor
      · rw [hreg, hlv, hgf, determine_regime, if_neg hA]
        simp only [hgf]
        constructor
        · intro hcontra
          exfalso
          by_cases hc : gf < p <;> simp [hc] at hcontra
        · intro hcontra
          cases hcontra
      · intro w hw
        rw [hlv, hgf] at hw
        obtain rfl : gf = w := by cases hw; rfl
        rw [hreg, determine_regime, if_neg hA]
        simp [hgf]

/-- Witness for C5 at the empty table: the pipeline's level set has no
`gamma_flip` and the regime is neutral. -/
theorem c5_regime_consistency_witness :
    (process_options_data {} engineInit [] 100).1.2.2.2 = "neutral" :=
  (c5_regime_consistency {} engineInit [] 100).1.mpr rfl

/-- The output quadruple of the pipeline does not depend on the engine
state it starts from. -/
theorem process_state_blind (cfg : Config) (s t : EngineState)
    (df : List ContractRow) (p : ℚ) :
    (process_options_data cfg s df p).1 = (process_options_data cfg t df p).1 := by
  by_cases hA : aggregate_by_strike (calculate_dealer_gamma df) = []
  · simp [process_options_data, identify_key_levels, determine_regime, hA]
  · cases hgf :
        (identifyLevelsBody (aggregate_by_strike (calculate_dealer_gamma df)) p).gamma_flip with
    | none =>
      simp only [process_options_data, identify_key_levels, if_neg hA,
        determine_regime, hgf]
    | some gf =>
      simp only [process_options_data, identify_key_levels, if_neg hA,
        determine_regime, hgf]

/-- C9.  Running the full pipeline twice in succession on the same engine
instance with identical input table and reference price yields identical
output (aggregate table, level set, ranking and regime) both times,
despite the mutable `levels` / `regime` attributes written during a run. -/
theorem c9_idempotent (cfg : Config) (s : EngineState)
    (df : List ContractRow) (p : ℚ) :
    (process_options_data cfg (process_options_data cfg s df p).2 df p).1 =
      (process_options_data cfg s df p).1 :=
  process_state_blind cfg _ s df p

/-- C10.  Calling `identify_key_levels` on an empty aggregate returns the
empty level map while leaving the stored `levels` attribute untouched, and
a subsequent direct `determine_regime` call decides the regime from that
stored attribute (here a surviving `gamma_flip`), not from the empty map
just returned. -/
theorem c10_stale_levels (s : EngineState) (gf : ℚ)
    (hflip : s.levels.gamma_flip = some gf) (p p2 : ℚ)
    (df2 : List StrikeAgg) (hne : df2 ≠ []) :
    identify_key_levels s [] p = (({} : Levels), s) ∧
    (determine_regime (identify_key_levels s [] p).2 df2 p2).1 =
      (if gf < p2 then "short_gamma" else "long_gamma") := by
  have h1 : identify_key_levels s [] p = (({} : Levels), s) := by
    rw [identify_key_levels, if_pos rfl]
  refine ⟨h1, ?_⟩
  rw [h1, determine_regime, if_neg hne, hflip]

/-- Witness for C10: a stored flip at 100 survives an empty-frame
`identify_key_levels` call and still drives `determine_regime`. -/
theorem c10_stale_levels_witness :
    identify_key_levels
        ⟨{ gamma_flip := some 100, gamma_flip_value := some 0 }, "short_gamma"⟩ [] 5 =
      (({} : Levels),
        ⟨{ gamma_flip := some 100, gamma_flip_value := some 0 }, "short_gamma"⟩) ∧
    (determine_regime
        (identify_key_levels
          ⟨{ gamma_flip := some 100, gamma_flip_value := some 0 }, "short_gamma"⟩ [] 5).2
        [⟨100, -10, 0, -10, 1, 1, -10⟩] 150).1 =
      (if (100 : ℚ) < 150 then "short_gamma" else "long_gamma") :=
  c10_stale_levels _ 100 rfl 5 150 _ (by decide)

/-! ### Lemmas about the ranking selection -/

theorem nlargestScore_perm_base (l : List ScoredAgg) :
    ((List.insertionSort rankRel l.enum).map Prod.snd).Perm l := by
  have h := (List.perm_insertionSort rankRel l.enum).map Prod.snd
  rwa [List.enum_eq_enumFrom, List.enumFrom_map_snd] at h

theorem nlargestScore_subset (n : ℤ) (l : List ScoredAgg) :
    ∀ x ∈ nlargestScore n l, x ∈ l := by
  intro x hx
  rw [nlargestScore] at hx
  split at hx
  · cases hx
  · exact (nlargestScore_perm_base l).mem_iff.1 (List.take_subset _ _ hx)

theorem nlargestScore_length (n : ℤ) (l : List ScoredAgg) :
    (nlargestScore n l).length ≤ n.toNat := by
  rw [nlargestScore]
  split
  · exact Nat.zero_le _
  · exact List.length_take_le _ _

theorem sort_enum_fst_ne (l : List ScoredAgg) :
    (List.insertionSort rankRel l.enum).Pairwise (fun a b => a.1 ≠ b.1) := by
  have h2 : (l.enum.map Prod.fst).Nodup := by
    rw [List.enum_eq_enumFrom, List.enumFrom_map_fst]
    exact List.nodup_range' 0 l.length
  have h1 : ((List.insertionSort rankRel l.enum).map Prod.fst).Nodup :=
    ((List.perm_insertionSort rankRel l.enum).map Prod.fst).symm.nodup h2
  exact List.pairwise_map.1 h1

theorem nlargestScore_pairwise (n : ℤ) (l : List ScoredAgg)
    (hl : l.Pairwise (fun a b => a.base.strike < b.base.strike)) :
    (nlargestScore n l).Pairwise
      (fun a b => b.score < a.score ∨
        (a.score = b.score ∧ a.base.strike < b.base.strike)) := by
  rw [nlargestScore]
  split
  · exact List.Pairwise.nil
  · refine List.Pairwise.take ?_
    refine List.pairwise_map.2 ?_
    have hsorted : (List.insertionSort rankRel l.enum).Pairwise rankRel :=
      List.sorted_insertionSort rankRel l.enum
    have hcomb := hsorted.and (sort_enum_fst_ne l)
    refine hcomb.imp_of_mem ?_
    intro a b ha hb hab
    rcases hab.1 with hlt | ⟨heq, hle⟩
    · exact Or.inl hlt
    · refine Or.inr ⟨heq, ?_⟩
      have hij : a.1 < b.1 := lt_of_le_of_ne hle hab.2
      have hamem : a ∈ l.enum :=
        (List.perm_insertionSort rankRel l.enum).mem_iff.1 ha
      have hbmem : b ∈ l.enum :=
        (List.perm_insertionSort rankRel l.enum).mem_iff.1 hb
      obtain ⟨i, x⟩ := a
      obtain ⟨j, y⟩ := b
      rw [List.mk_mem_enum_iff_getElem?] at hamem hbmem
      obtain ⟨hi, hgi⟩ := List.getElem?_eq_some_iff.1 hamem
      obtain ⟨hj, hgj⟩ := List.getElem?_eq_some_iff.1 hbmem
      have hrel := List.pairwise_iff_getElem.1 hl i j hi hj hij
      rw [hgi, hgj] at hrel
      exact hrel

/-- C6.  The importance ranking scores each strike
`score = |net_gamma| * volume`, returns at most `top_levels_count` rows
(the configured default is 5, and a zero count yields an empty ranking),
ordered by score descending with exact score ties broken by strike
ascending. -/
theorem c6_ranking (cfg : Config) (df : List StrikeAgg)
    (hs : df.Pairwise (fun a b => a.strike < b.strike)) :
    (rank_levels cfg df).length ≤ cfg.top_levels_count.toNat ∧
    (cfg.top_levels_count = 0 → rank_levels cfg df = []) ∧
    (∀ x ∈ rank_levels cfg df,
      x.base ∈ df ∧ x.score = |x.base.net_gamma| * x.base.volume) ∧
    (rank_levels cfg df).Pairwise
      (fun a b => b.score < a.score ∨
        (a.score = b.score ∧ a.base.strike < b.base.strike)) ∧
    ({} : Config).top_levels_count = 5 := by
  refine ⟨nlargestScore_length _ _, ?_, ?_, ?_, rfl⟩
  · intro h0
    rw [rank_levels, nlargestScore, if_pos (le_of_eq h0)]
  · intro x hx
    have hmem := nlargestScore_subset cfg.top_levels_count _ x hx
    rcases List.mem_map.1 hmem with ⟨a, ha, rfl⟩
    exact ⟨ha, rfl⟩
  · refine nlargestScore_pairwise _ _ ?_
    exact List.pairwise_map.2 hs

/-- Witness for C6 at a concrete two-strike aggregate and the default
configuration. -/
theorem c6_ranking_witness :
    (rank_levels {} [⟨1, -3, 0, -3, 2, 1, -3⟩, ⟨2, -4, -4, 0, 2, 1, -4⟩]).length ≤
      (({} : Config)).top_levels_count.toNat ∧
    ({} : Config).top_levels_count = 5 := by
  have h := c6_ranking {} [⟨1, -3, 0, -3, 2, 1, -3⟩, ⟨2, -4, -4, 0, 2, 1, -4⟩] (by decide)
  exact ⟨h.1, h.2.2.2.2⟩

/-! ### NaN degradation (C7) -/

/-- A contract row with each absent (NaN) numeric field replaced by the
zero the spec says it must contribute. -/
def zeroNaN (r : ContractRow) : ContractRow :=
  { r with
    volume := some (r.volume.getD 0)
    open_interest := some (r.open_interest.getD 0)
    gamma := some (r.gamma.getD 0) }

theorem nsum_cons (v : RVal) (l : List RVal) :
    nsum (v :: l) = v.getD 0 + nsum l := by
  simp [nsum]

/-- Replacing a row's NaN fields by zero does not change any column's
contribution to a skipna sum after the dealer-gamma stage. -/
theorem zeroNaN_getD_eq (r : ContractRow) :
    (dealerGammaRow (zeroNaN r)).dealer_gamma.getD 0 =
      (dealerGammaRow r).dealer_gamma.getD 0 ∧
    (dealerGammaRow (zeroNaN r)).call_gamma.getD 0 =
      (dealerGammaRow r).call_gamma.getD 0 ∧
    (dealerGammaRow (zeroNaN r)).put_gamma.getD 0 =
      (dealerGammaRow r).put_gamma.getD 0 ∧
    (dealerGammaRow (zeroNaN r)).volume.getD 0 =
      (dealerGammaRow r).volume.getD 0 ∧
    (dealerGammaRow (zeroNaN r)).open_interest.getD 0 =
      (dealerGammaRow r).open_interest.getD 0 := by
  obtain ⟨st, ty, v, oi, g⟩ := r
  refine ⟨?_, ?_, ?_, ?_, ?_⟩ <;>
    cases v <;> cases oi <;> cases g <;>
      simp [dealerGammaRow, zeroNaN, rmul, rneg] <;> split_ifs <;> simp

theorem nsum_column_zeroNaN (F : GammaRow → RVal)
    (hF : ∀ r : ContractRow,
      (F (dealerGammaRow (zeroNaN r))).getD 0 = (F (dealerGammaRow r)).getD 0)
    (df : List ContractRow) (k : ℚ) :
    nsum (((calculate_dealer_gamma (df.map zeroNaN)).filter
        (fun r => r.strike = k)).map F) =
      nsum (((calculate_dealer_gamma df).filter (fun r => r.strike = k)).map F) := by
  induction df with
  | nil => rfl
  | cons r df ih =>
    rw [calculate_dealer_gamma, calculate_dealer_gamma] at ih ⊢
    simp only [List.map_cons, List.filter_cons]
    have hk2 : (dealerGammaRow (zeroNaN r)).strike = (dealerGammaRow r).strike := rfl
    by_cases hk : (dealerGammaRow r).strike = k
    · rw [hk2, if_pos (by simpa using hk), if_pos (by simpa using hk)]
      rw [List.map_cons, List.map_cons, nsum_cons, nsum_cons, hF r, ih]
    · rw [hk2, if_neg (by simpa using hk), if_neg (by simpa using hk)]
      exact ih

/-- C7.  Rows whose gamma, open-interest or volume field is absent (NaN)
never fail the pipeline, and every absent field contributes exactly 0 to
each aggregated per-strike sum: the aggregate of the raw table equals the
aggregate of the table with all NaN fields replaced by 0.  (All embedded
stages are total functions, so no invocation can raise.) -/
theorem c7_nan_degrades (df : List ContractRow) :
    aggregate_by_strike (calculate_dealer_gamma df) =
      aggregate_by_strike (calculate_dealer_gamma (df.map zeroNaN)) := by
  have hstr : (calculate_dealer_gamma (df.map zeroNaN)).map (fun r => r.strike) =
      (calculate_dealer_gamma df).map (fun r => r.strike) := by
    rw [calculate_dealer_gamma, calculate_dealer_gamma,
      List.map_map, List.map_map, List.map_map]
    rfl
  have hkeys : strikeKeys (calculate_dealer_gamma (df.map zeroNaN)) =
      strikeKeys (calculate_dealer_gamma df) := by
    rw [strikeKeys, strikeKeys, hstr]
  have hagg : ∀ k, aggAt (calculate_dealer_gamma (df.map zeroNaN)) k =
      aggAt (calculate_dealer_gamma df) k := by
    intro k
    have h1 := nsum_column_zeroNaN (fun r => r.dealer_gamma)
      (fun r => (zeroNaN_getD_eq r).1) df k
    have h2 := nsum_column_zeroNaN (fun r => r.call_gamma)
      (fun r => (zeroNaN_getD_eq r).2.1) df k
    have h3 := nsum_column_zeroNaN (fun r => r.put_gamma)
      (fun r => (zeroNaN_getD_eq r).2.2.1) df k
    have h4 := nsum_column_zeroNaN (fun r => r.volume)
      (fun r => (zeroNaN_getD_eq r).2.2.2.1) df k
    have h5 := nsum_column_zeroNaN (fun r => r.open_interest)
      (fun r => (zeroNaN_getD_eq r).2.2.2.2) df k
    simp only [aggAt]
    rw [h1, h2, h3, h4, h5]
  rw [aggregate_by_strike, aggregate_by_strike, hkeys]
  exact (List.map_congr_left fun k _ => hagg k).symm

/-! ### Configuration validation (C8) -/

/-- C8 counterexample: invoking the entry point with a negative top-K
count (`-1`) and a non-positive reference price (`-5`) does not reject the
call — every stage runs and a normal result is returned. -/
theorem c8_counterexample :
    (process_options_data { top_levels_count := -1 } engineInit [] (-5)).1 =
      ([], ({} : Levels), [], "neutral") := rfl

/-- C8 amended: the entry point performs no eager configuration
validation; with a non-positive reference price and a negative top-K count
the pipeline still runs every stage on the given table, producing the
strike aggregate as usual and an empty ranking rather than raising. -/
theorem c8_no_eager_validation (cfg : Config) (s : EngineState)
    (df : List ContractRow) (p : ℚ)
    (_hp : p ≤ 0) (hk : cfg.top_levels_count < 0) :
    (process_options_data cfg s df p).1.1 =
      aggregate_by_strike (calculate_dealer_gamma df) ∧
    (process_options_data cfg s df p).1.2.2.1 = [] := by
  refine ⟨rfl, ?_⟩
  have h : (process_options_data cfg s df p).1.2.2.1 =
      rank_levels cfg (aggregate_by_strike (calculate_dealer_gamma df)) := rfl
  rw [h, rank_levels, nlargestScore, if_pos (le_of_lt hk)]

/-- Witness for the amended C8 at a concrete invalid configuration. -/
theorem c8_no_eager_validation_witness :
    (process_options_data { top_levels_count := -1 } engineInit
        [⟨100, "put", some 10, some 10, some (1 / 100)⟩] (-5)).1.1 =
      aggregate_by_strike (calculate_dealer_gamma
        [⟨100, "put", some 10, some 10, some (1 / 100)⟩]) ∧
    (process_options_data { top_levels_count := -1 } engineInit
        [⟨100, "put", some 10, some 10, some (1 / 100)⟩] (-5)).1.2.2.1 = [] :=
  c8_no_eager_validation { top_levels_count := -1 } engineInit
    [⟨100, "put", some 10, some 10, some (1 / 100)⟩] (-5) (by norm_num) (by decide)
